import Mathlib
/-!
Verification of the dependency-closure traversal of fcampo/loop-velocity.

The embedding models the Bugziller module of src/everything.js (second copy,
lines 560-658; the batch variants in src/getAll.js are semantically the same)
and the single-identifier variant of src/getAll.js (lines 18-67).

JavaScript features are modelled as follows: promise chains become sequential
state passing; the module-level hashtable checkedBugs becomes an explicit
visited list threaded through the traversal; each fetch call is recorded in a
trace of request batches; a rejected promise becomes an error result; since
the mutual recursion of getAll/getDependencies need not terminate, the
functions take a fuel argument and report fuel exhaustion as a separate
outcome distinct from any program behaviour.
-/

/-- One bug record, with the fields requested by the source's include_fields
list (id, summary, resolution, depends_on). -/
structure Bug where
  id : Nat
  summary : String
  resolution : String
  depends_on : List Nat
deriving DecidableEq, Repr

/-- Ambient module state: the checkedBugs hashtable (as the list of marked
identifiers) together with the trace of fetch request batches issued so far. -/
structure St where
  visited : List Nat
  trace : List (List Nat)
deriving DecidableEq, Repr

/-- Outcome of a traversal call: a resolved promise with the module state at
resolution time, a rejected promise carrying the error, or fuel exhaustion. -/
inductive TResult where
  | ok : List Nat → St → TResult
  | err : String → TResult
  | out : TResult
deriving DecidableEq, Repr

/-- The network: given the index of the call (number of fetches already made)
and the batch of requested identifiers, either a parsed list of bug records or
a failure (network error or unparseable response). -/
abbrev FetchFn := Nat → List Nat → Except String (List Bug)

/-- The forEach/splice loop in getBug (src/everything.js lines 610-618):
JavaScript's forEach caches the length once, then visits indices 0..len-1,
skipping indices past the current end of the array; splice(k,1) removes the
element at index k in place.  The first argument counts the remaining
iterations (len - k). -/
def purgeGo : Nat → Nat → List Bug → List Nat → List Bug × List Nat
  | 0, _, arr, vis => (arr, vis)
  | n+1, k, arr, vis =>
    if h : k < arr.length then
      if (arr.get ⟨k, h⟩).id ∈ vis then purgeGo n (k+1) (arr.eraseIdx k) vis
      else purgeGo n (k+1) arr ((arr.get ⟨k, h⟩).id :: vis)
    else purgeGo n (k+1) arr vis

/-- The whole purge pass of getBug over a fetched record list. -/
def purgeVisited (arr : List Bug) (vis : List Nat) : List Bug × List Nat :=
  purgeGo arr.length 0 arr vis

/-- getBug (src/everything.js lines 603-622): issue one fetch for the batch,
then purge the response against checkedBugs, marking survivors. -/
def getBugF (f : FetchFn) (bugArray : List Nat) (st : St) :
    Except String (List Bug × St) :=
  match f st.trace.length bugArray with
  | .error e => .error e
  | .ok data =>
    let p := purgeVisited data st.visited
    .ok (p.1, ⟨p.2, st.trace ++ [bugArray]⟩)

mutual

/-- getAll (src/everything.js lines 642-658, same as getAll2 in
src/getAll.js): empty batch resolves to [] at once; otherwise fetch and purge
via getBug, push the survivors' ids, then append the dependency closure. -/
def getAllF (f : FetchFn) : Nat → List Nat → St → TResult
  | 0, _, _ => .out
  | fuel+1, bugArray, st =>
    if bugArray.isEmpty then .ok [] st
    else
      match getBugF f bugArray st with
      | .error e => .err e
      | .ok (infoArray, st2) =>
        match getDepsF f fuel infoArray st2 with
        | .ok deps st3 => .ok (infoArray.map Bug.id ++ deps) st3
        | .err e => .err e
        | .out => .out

/-- getDependencies (src/everything.js lines 628-636): a promise-chain reduce
over the purged records, concatenating each record's recursive closure in
order. -/
def getDepsF (f : FetchFn) : Nat → List Bug → St → TResult
  | 0, _, _ => .out
  | _+1, [], st => .ok [] st
  | fuel+1, c :: rest, st =>
    match getAllF f fuel c.depends_on st with
    | .ok depList st1 =>
      match getDepsF f fuel rest st1 with
      | .ok acc st2 => .ok (depList ++ acc) st2
      | .err e => .err e
      | .out => .out
    | .err e => .err e
    | .out => .out

end

/-- Keep the first occurrence of each identifier, dropping later repeats;
the first argument accumulates identifiers already seen. -/
def dedupAux : List Nat → List Nat → List Nat
  | _, [] => []
  | seen, x :: xs =>
    if x ∈ seen then dedupAux seen xs else x :: dedupAux (x :: seen) xs

/-- Deduplicate a request batch keeping first occurrences. -/
def dedupFirst (l : List Nat) : List Nat := dedupAux [] l

/-- A Bugzilla-style server for a fixed bug database: every call succeeds and
returns one record per recognized requested identifier (unknown identifiers
are silently absent), in request order. -/
def dbFetch (db : Nat → Option Bug) : FetchFn :=
  fun _ batch => .ok ((dedupFirst batch).filterMap db)

/-- A server database is well formed when each stored record carries the
identifier under which it is filed. -/
def wellFormed (db : Nat → Option Bug) : Prop :=
  ∀ x b, db x = some b → b.id = x

/-- The module keeps checkedBugs at module level (src/everything.js line 578,
src/getAll.js line 8), so a second top-level getAll call starts from the state
the first call left behind.  This definition models two successive top-level
calls with the same roots in the same process. -/
def persistedTwice (f : FetchFn) (fuel : Nat) (roots : List Nat) :
    TResult × TResult :=
  match getAllF f fuel roots ⟨[], []⟩ with
  | .ok r1 st1 => (.ok r1 st1, getAllF f fuel roots st1)
  | other => (other, other)

/-- A bug object as isMeta may receive it: possibly null/undefined (the outer
Option) and possibly lacking a summary field (the inner Option). -/
structure JsBug where
  summary : Option String
deriving DecidableEq, Repr

/-- Whether the regular expression [\[|\(]meta[\]|\)] matches at the head of
the character list: one character from the class, the literal lowercase meta,
one character from the closing class. -/
def metaHitAt : List Char → Bool
  | c1 :: 'm' :: 'e' :: 't' :: 'a' :: c2 :: _ =>
    (c1 == '[' || c1 == '|' || c1 == '(') && (c2 == ']' || c2 == '|' || c2 == ')')
  | _ => false

/-- Whether the regular expression matches anywhere in the string. -/
def metaScan : List Char → Bool
  | [] => false
  | c :: rest => metaHitAt (c :: rest) || metaScan rest

/-- isMeta (src/everything.js lines 581-588 and 1115-1122): a null/undefined
bug, or one whose summary is missing or the empty string (both falsy), yields
false via the guard; otherwise the regex is tested against the summary. -/
def isMeta (bug : Option JsBug) : Bool :=
  match bug with
  | none => false
  | some b =>
    match b.summary with
    | none => false
    | some s => if s = "" then false else metaScan s.data

/-- Dependencies named by a record of the database (empty for an unknown
identifier). -/
def depsOf (db : Nat → Option Bug) (x : Nat) : List Nat :=
  match db x with
  | some b => b.depends_on
  | none => []

/-- Modelled from the spec: the breadth-by-layer result order of §3
(TraversalResult) and §4.2 — root layer first, then each layer's newly
discovered dependents in the order their parent batch was processed, each
identifier at most once.  Used only to compare the source's actual output
order against the order the spec describes. -/
def specBreadthByLayer (db : Nat → Option Bug) :
    Nat → List Nat → List Nat → List Nat
  | 0, _, _ => []
  | fuel+1, frontier, visited =>
    let fresh := (dedupFirst frontier).filter
      (fun x => !visited.contains x && (db x).isSome)
    if fresh.isEmpty then []
    else fresh ++ specBreadthByLayer db fuel
      (fresh.map (depsOf db)).flatten (visited ++ fresh)

/-- Diamond dependency graph: 1 depends on 2 and 3, both of which depend on
the shared downstream bug 4. -/
def db1 : Nat → Option Bug := fun n =>
  match n with
  | 1 => some ⟨1, "root", "", [2, 3]⟩
  | 2 => some ⟨2, "left", "", [4]⟩
  | 3 => some ⟨3, "right", "", [4]⟩
  | 4 => some ⟨4, "leaf", "FIXED", []⟩
  | _ => none

/-- Graph whose traversal emits bug 2 twice: 3 depends on the already visited
1 and 2, and the splice of 1's record during forEach shifts 2's record past
the iteration index, so it is returned unchecked. -/
def db2 : Nat → Option Bug := fun n =>
  match n with
  | 1 => some ⟨1, "a", "", [2]⟩
  | 2 => some ⟨2, "b", "", [3]⟩
  | 3 => some ⟨3, "c", "", [1, 2]⟩
  | _ => none

/-- Cyclic graph on which the traversal never terminates: records for 2 and 3
keep surviving the purge unmarked (each is always preceded in its response by
the visited record for 1, whose splice makes forEach skip them). -/
def db4 : Nat → Option Bug := fun n =>
  match n with
  | 1 => some ⟨1, "a", "", [2]⟩
  | 2 => some ⟨2, "b", "", [1, 3]⟩
  | 3 => some ⟨3, "c", "", [1, 2]⟩
  | _ => none

/-- Depth-three graph separating the source's order from breadth-by-layer:
breadth order is [1, 2, 3, 4, 5, 6], the source produces [1, 2, 3, 4, 6, 5]
because it finishes bug 2's whole subtree (4 then 6) before bug 3's. -/
def db6 : Nat → Option Bug := fun n =>
  match n with
  | 1 => some ⟨1, "r", "", [2, 3]⟩
  | 2 => some ⟨2, "a", "", [4]⟩
  | 3 => some ⟨3, "b", "", [5]⟩
  | 4 => some ⟨4, "c", "", [6]⟩
  | 5 => some ⟨5, "d", "", []⟩
  | 6 => some ⟨6, "e", "", []⟩
  | _ => none

/-- The spec's two-layer scenario: root 5000 depends on 5001, which depends
on nothing. -/
def db5k : Nat → Option Bug := fun n =>
  match n with
  | 5000 => some ⟨5000, "root", "", [5001]⟩
  | 5001 => some ⟨5001, "leaf", "", []⟩
  | _ => none

/-- Three-bug chain 1 → 2 → 3 used to exercise a middle-layer fetch
failure. -/
def db7 : Nat → Option Bug := fun n =>
  match n with
  | 1 => some ⟨1, "a", "", [2]⟩
  | 2 => some ⟨2, "b", "", [3]⟩
  | 3 => some ⟨3, "c", "", []⟩
  | _ => none

/-- getAll from src/getAll.js (lines 51-67), the single-identifier variant.
Called with a numeric bug id (as the repository's commented-out driver calls
it): if the id is already in checkedBugs it resolves to []; otherwise getBug
(lines 23-37) builds the query and fetches, and its response callback
evaluates bugList.split(',') — but bugList is a Number, which has no split
method, so the callback throws and the promise chain rejects before the
isMeta filter or getDependencies can run. -/
def getAll1 (f : FetchFn) (bugNumber : Nat) (st : St) : TResult :=
  if bugNumber ∈ st.visited then .ok [] st
  else
    match f st.trace.length [bugNumber] with
    | .error e => .err e
    | .ok _ => .err "TypeError: bugList.split is not a function"

/-- Meta-summary bug 7 depending on bug 8, for exercising the
single-identifier variant. -/
def db9 : Nat → Option Bug := fun n =>
  match n with
  | 7 => some ⟨7, "[meta] tracking", "", [8]⟩
  | 8 => some ⟨8, "leaf", "", []⟩
  | _ => none

/-- Rewrite a record's summary, leaving id, resolution and dependency list
untouched. -/
def mapSummary (g : String → String) (b : Bug) : Bug :=
  ⟨b.id, g b.summary, b.resolution, b.depends_on⟩

/-- Rewrite every summary in a database. -/
def reSummarize (g : String → String) (db : Nat → Option Bug) :
    Nat → Option Bug :=
  fun n => (db n).map (mapSummary g)

/-- A fetch function that behaves like f except that its j-th call (zero
based) fails with error e: the model of a network failure or unparseable
response at one layer of the traversal. -/
def failAt (f : FetchFn) (j : Nat) (e : String) : FetchFn :=
  fun i batch => if i = j then .error e else f i batch

/-- Reachability through the depends-on relation over the recognized bugs of
a database: a recognized root is reachable, and a recognized dependency of a
reachable bug is reachable. -/
inductive Reach (db : Nat → Option Bug) (roots : List Nat) : Nat → Prop where
  | root (x : Nat) (b : Bug) (hx : x ∈ roots) (hb : db x = some b) :
      Reach db roots x
  | step (x : Nat) (b : Bug) (y : Nat) (hx : Reach db roots x)
      (hb : db x = some b) (hy : y ∈ b.depends_on) (hrec : (db y).isSome) :
      Reach db roots y

theorem db4_loop : ∀ n : Nat,
    (∀ t, getAllF (dbFetch db4) n [1, 3] ⟨[2, 1], t⟩ = .out) ∧
    (∀ t, getAllF (dbFetch db4) n [1, 2] ⟨[2, 1], t⟩ = .out) := by
  intro n
  induction n using Nat.strong_induction_on with
  | _ n ih =>
    match n with
    | 0 => exact ⟨fun _ => rfl, fun _ => rfl⟩
    | 1 => exact ⟨fun _ => rfl, fun _ => rfl⟩
    | m + 2 =>
      constructor
      · intro t
        have h : getAllF (dbFetch db4) m [1, 2] ⟨[2, 1], t ++ [[1, 3]]⟩ = .out :=
          (ih m (by omega)).2 (t ++ [[1, 3]])
        have hd : getDepsF (dbFetch db4) (m + 1) [⟨3, "c", "", [1, 2]⟩]
            ⟨[2, 1], t ++ [[1, 3]]⟩ = .out := by
          show (match getAllF (dbFetch db4) m [1, 2] ⟨[2, 1], t ++ [[1, 3]]⟩ with
                | .ok depList st1 =>
                  (match getDepsF (dbFetch db4) m ([] : List Bug) st1 with
                   | .ok acc st2 => TResult.ok (depList ++ acc) st2
                   | .err e => .err e
                   | .out => .out)
                | .err e => .err e
                | .out => .out) = .out
          rw [h]
        show (match getDepsF (dbFetch db4) (m + 1) [⟨3, "c", "", [1, 2]⟩]
                ⟨[2, 1], t ++ [[1, 3]]⟩ with
              | .ok deps st3 => TResult.ok (3 :: deps) st3
              | .err e => .err e
              | .out => .out) = .out
        rw [hd]
      · intro t
        have h : getAllF (dbFetch db4) m [1, 3] ⟨[2, 1], t ++ [[1, 2]]⟩ = .out :=
          (ih m (by omega)).1 (t ++ [[1, 2]])
        have hd : getDepsF (dbFetch db4) (m + 1) [⟨2, "b", "", [1, 3]⟩]
            ⟨[2, 1], t ++ [[1, 2]]⟩ = .out := by
          show (match getAllF (dbFetch db4) m [1, 3] ⟨[2, 1], t ++ [[1, 2]]⟩ with
                | .ok depList st1 =>
                  (match getDepsF (dbFetch db4) m ([] : List Bug) st1 with
                   | .ok acc st2 => TResult.ok (depList ++ acc) st2
                   | .err e => .err e
                   | .out => .out)
                | .err e => .err e
                | .out => .out) = .out
          rw [h]
        show (match getDepsF (dbFetch db4) (m + 1) [⟨2, "b", "", [1, 3]⟩]
                ⟨[2, 1], t ++ [[1, 2]]⟩ with
              | .ok deps st3 => TResult.ok (2 :: deps) st3
              | .err e => .err e
              | .out => .out) = .out
        rw [hd]

/-- C1: the claim that each identifier is included in at most one fetch
request fails on the source.  On the diamond graph db1 (1 depends on 2 and 3,
both depending on 4) the traversal from fresh state succeeds, but its fetch
trace is [[1], [2, 3], [4], [4]]: identifier 4 is included in two fetch
requests, because getAll forwards each record's depends_on list to getBug
without consulting checkedBugs first — the purge happens only after the
response arrives. -/
theorem c1_diamond_identifier_fetched_twice :
    getAllF (dbFetch db1) 20 [1] ⟨[], []⟩ =
      .ok [1, 2, 3, 4] ⟨[4, 3, 2, 1], [[1], [2, 3], [4], [4]]⟩ ∧
    ([[1], [2, 3], [4], [4]] : List (List Nat)).countP (fun b => b.contains 4) = 2 := by
  exact ⟨rfl, rfl⟩

/-- C2: the claim that a top-level getAll on fresh state returns no
duplicates fails on the source.  On db2 (1 → 2 → 3, 3 depending on 1 and 2)
the result is [1, 2, 3, 2]: when the response [record 1, record 2] for batch
[1, 2] is purged, splicing the visited record 1 at index 0 shifts record 2 to
index 0, forEach's next index 1 is past the end, and the already-visited
record 2 survives the purge and is pushed a second time. -/
theorem c2_result_contains_duplicate :
    getAllF (dbFetch db2) 20 [1] ⟨[], []⟩ =
      .ok [1, 2, 3, 2] ⟨[3, 2, 1], [[1], [2], [3], [1, 2], [3]]⟩ ∧
    ¬ ([1, 2, 3, 2] : List Nat).Nodup ∧
    ([1, 2, 3, 2] : List Nat).count 2 = 2 := by
  exact ⟨rfl, by decide, rfl⟩

/-- C3: the claim that two successive top-level getAll calls with the same
roots return equal results fails on the source, because checkedBugs is a
module-level hashtable that survives the first call.  On db5k the first call
returns [5000, 5001]; the second call starts with both identifiers already
marked, purges the whole response for batch [5000], and returns []. -/
theorem c3_second_call_differs :
    persistedTwice (dbFetch db5k) 10 [5000] =
      (.ok [5000, 5001] ⟨[5001, 5000], [[5000], [5001]]⟩,
       .ok [] ⟨[5001, 5000], [[5000], [5001], [5000]]⟩) ∧
    ([5000, 5001] : List Nat) ≠ [] := by
  exact ⟨rfl, by decide⟩

/-- C4: the claim that the traversal terminates on every finite dependency
graph fails on the source.  On the cyclic graph db4 (1 → [2], 2 → [1, 3],
3 → [1, 2]) the top-level call from fresh state exhausts any amount of fuel:
after bugs 1 and 2 are visited, the responses for batches [1, 3] and [1, 2]
each begin with the visited record 1, whose splice makes forEach skip the
following record, so bugs 3 and 2 are re-emitted forever without ever being
marked, and the two fetches alternate without end. -/
theorem c4_cycle_traversal_never_terminates :
    ∀ fuel, getAllF (dbFetch db4) fuel [1] ⟨[], []⟩ = .out := by
  intro fuel
  match fuel with
  | 0 => rfl
  | 1 => rfl
  | 2 => rfl
  | 3 => rfl
  | n + 4 =>
    have h1 : getAllF (dbFetch db4) n [1, 3] ⟨[2, 1], [[1], [2]]⟩ = .out :=
      (db4_loop n).1 [[1], [2]]
    have h2 : getDepsF (dbFetch db4) (n + 1) [⟨2, "b", "", [1, 3]⟩]
        ⟨[2, 1], [[1], [2]]⟩ = .out := by
      show (match getAllF (dbFetch db4) n [1, 3] ⟨[2, 1], [[1], [2]]⟩ with
            | .ok depList st1 =>
              (match getDepsF (dbFetch db4) n ([] : List Bug) st1 with
               | .ok acc st2 => TResult.ok (depList ++ acc) st2
               | .err e => .err e
               | .out => .out)
            | .err e => .err e
            | .out => .out) = .out
      rw [h1]
    have h3 : getAllF (dbFetch db4) (n + 2) [2] ⟨[1], [[1]]⟩ = .out := by
      show (match getDepsF (dbFetch db4) (n + 1) [⟨2, "b", "", [1, 3]⟩]
              ⟨[2, 1], [[1], [2]]⟩ with
            | .ok deps st3 => TResult.ok (2 :: deps) st3
            | .err e => .err e
            | .out => .out) = .out
      rw [h2]
    have h4 : getDepsF (dbFetch db4) (n + 3) [⟨1, "a", "", [2]⟩]
        ⟨[1], [[1]]⟩ = .out := by
      show (match getAllF (dbFetch db4) (n + 2) [2] ⟨[1], [[1]]⟩ with
            | .ok depList st1 =>
              (match getDepsF (dbFetch db4) (n + 2) ([] : List Bug) st1 with
               | .ok acc st2 => TResult.ok (depList ++ acc) st2
               | .err e => .err e
               | .out => .out)
            | .err e => .err e
            | .out => .out) = .out
      rw [h3]
    show (match getDepsF (dbFetch db4) (n + 3) [⟨1, "a", "", [2]⟩]
            ⟨[1], [[1]]⟩ with
          | .ok deps st3 => TResult.ok (1 :: deps) st3
          | .err e => .err e
          | .out => .out) = .out
    rw [h4]

/-- C6 counterexample: the result order of the traversal is not breadth by
layer.  On db6 the breadth-by-layer order of the spec is [1, 2, 3, 4, 5, 6]
(layers [1], [2, 3], [4, 5], [6]) but the source returns [1, 2, 3, 4, 6, 5]:
getDependencies finishes the whole recursive closure of bug 2 (4, then 6)
before starting bug 3's. -/
theorem c6_order_not_breadth_by_layer :
    getAllF (dbFetch db6) 30 [1] ⟨[], []⟩ =
      .ok [1, 2, 3, 4, 6, 5] ⟨[5, 6, 4, 3, 2, 1], [[1], [2, 3], [4], [6], [5]]⟩ ∧
    specBreadthByLayer db6 30 [1] [] = [1, 2, 3, 4, 5, 6] ∧
    ([1, 2, 3, 4, 6, 5] : List Nat) ≠ [1, 2, 3, 4, 5, 6] := by
  exact ⟨rfl, rfl, by decide⟩

/-- C6 amended: on the spec's concrete two-layer scenario (root 5000 depends
on 5001, 5001 on nothing) the source does perform exactly two sequential
fetches with batches [5000] then [5001] and returns [5000, 5001]; the general
order, however, is each batch's survivors followed by each survivor's full
recursive closure in turn, which coincides with breadth-by-layer only on
graphs this shallow. -/
theorem c6_two_layer_scenario :
    getAllF (dbFetch db5k) 10 [5000] ⟨[], []⟩ =
      .ok [5000, 5001] ⟨[5001, 5000], [[5000], [5001]]⟩ := by
  exact rfl

/-- C8: a call with an empty roots collection resolves immediately with the
empty result, leaves the state untouched (in particular the fetch trace: no
network request is made), and does this for every fetch function, which is
therefore never consulted. -/
theorem c8_empty_roots_no_fetch :
    ∀ (f : FetchFn) (fuel : Nat) (st : St), getAllF f (fuel + 1) [] st = .ok [] st :=
  fun _ _ _ => rfl

/-- C10: isMeta is total on absent data — for a null/undefined bug, a bug
without a summary field, or a bug whose summary is the empty string, the
guard returns false instead of reaching the regular-expression test. -/
theorem c10_isMeta_false_on_absent (b : Option JsBug)
    (h : b = none ∨ b = some ⟨none⟩ ∨ b = some ⟨some ""⟩) :
    isMeta b = false := by
  rcases h with rfl | rfl | rfl <;> rfl

theorem c10_isMeta_false_on_absent_witness : isMeta none = false :=
  c10_isMeta_false_on_absent none (Or.inl rfl)

theorem eraseIdx_map_comm (f : Bug → Bug) :
    ∀ (l : List Bug) (k : Nat), (l.map f).eraseIdx k = (l.eraseIdx k).map f := by
  intro l
  induction l with
  | nil => intro k; rfl
  | cons a t ih =>
    intro k
    cases k with
    | zero => rfl
    | succ m => simp only [List.map_cons, List.eraseIdx_cons_succ, ih]

theorem purgeGo_map (g : String → String) :
    ∀ (n k : Nat) (arr : List Bug) (vis : List Nat),
      purgeGo n k (arr.map (mapSummary g)) vis =
        ((purgeGo n k arr vis).1.map (mapSummary g), (purgeGo n k arr vis).2) := by
  intro n
  induction n with
  | zero => intro k arr vis; rfl
  | succ m ih =>
    intro k arr vis
    by_cases hk : k < arr.length
    · have hk' : k < (arr.map (mapSummary g)).length := by
        simpa using hk
      have hget : (arr.map (mapSummary g)).get ⟨k, hk'⟩ =
          mapSummary g (arr.get ⟨k, hk⟩) := by
        simp
      rw [purgeGo, purgeGo, dif_pos hk, dif_pos hk', hget]
      by_cases hv : (arr.get ⟨k, hk⟩).id ∈ vis
      · have hv' : (mapSummary g (arr.get ⟨k, hk⟩)).id ∈ vis := hv
        rw [if_pos hv, if_pos hv', eraseIdx_map_comm, ih]
      · have hv' : ¬ (mapSummary g (arr.get ⟨k, hk⟩)).id ∈ vis := hv
        have hid : (mapSummary g (arr.get ⟨k, hk⟩)).id = (arr.get ⟨k, hk⟩).id := rfl
        rw [if_neg hv, if_neg hv', hid, ih]
    · have hk' : ¬ k < (arr.map (mapSummary g)).length := by
        simpa using hk
      rw [purgeGo, purgeGo, dif_neg hk, dif_neg hk', ih]

theorem filterMap_reSummarize (g : String → String) (db : Nat → Option Bug) :
    ∀ l : List Nat,
      l.filterMap (reSummarize g db) = (l.filterMap db).map (mapSummary g) := by
  intro l
  induction l with
  | nil => rfl
  | cons x t ih =>
    simp only [List.filterMap_cons, reSummarize]
    cases hdb : db x with
    | none => simpa [hdb] using ih
    | some b => simpa [hdb] using ih

theorem getBugF_reSummarize (g : String → String) (db : Nat → Option Bug)
    (batch : List Nat) (st : St) :
    getBugF (dbFetch (reSummarize g db)) batch st =
      (getBugF (dbFetch db) batch st).map
        (fun p => (p.1.map (mapSummary g), p.2)) := by
  simp only [getBugF, dbFetch, filterMap_reSummarize, purgeVisited,
    List.length_map, purgeGo_map, Except.map]

/-- C9 (amended, main traversal): meta detection cannot exclude anything from
getAll's result because the traversal never reads summaries at all — running
the traversal over any database whose summaries have been rewritten
arbitrarily (in particular, adding or removing every meta marker) produces
the identical result, state and fetch trace. -/
theorem c9_summary_invariance (g : String → String) (db : Nat → Option Bug) :
    ∀ (fuel : Nat),
      (∀ (batch : List Nat) (st : St),
        getAllF (dbFetch (reSummarize g db)) fuel batch st =
          getAllF (dbFetch db) fuel batch st) ∧
      (∀ (bs : List Bug) (st : St),
        getDepsF (dbFetch (reSummarize g db)) fuel (bs.map (mapSummary g)) st =
          getDepsF (dbFetch db) fuel bs st) := by
  intro fuel
  induction fuel with
  | zero => exact ⟨fun _ _ => rfl, fun _ _ => rfl⟩
  | succ n ih =>
    constructor
    · intro batch st
      rw [getAllF, getAllF]
      by_cases hb : batch.isEmpty
      · rw [if_pos hb, if_pos hb]
      · rw [if_neg hb, if_neg hb, getBugF_reSummarize]
        cases hfetch : getBugF (dbFetch db) batch st with
        | error e => rfl
        | ok p =>
          simp only [Except.map]
          rw [ih.2 p.1 p.2]
          cases getDepsF (dbFetch db) n p.1 p.2 with
          | ok deps st3 => simp [mapSummary, Function.comp]
          | err e => rfl
          | out => rfl
    · intro bs st
      cases bs with
      | nil => rfl
      | cons c rest =>
        rw [List.map_cons, getDepsF, getDepsF]
        have hdep : (mapSummary g c).depends_on = c.depends_on := rfl
        rw [hdep, ih.1 c.depends_on st]
        cases getAllF (dbFetch db) n c.depends_on st with
        | ok depList st1 =>
          dsimp only
          rw [ih.2 rest st1]
        | err e => rfl
        | out => rfl

/-- C9 counterexample: the single-identifier getAll of src/getAll.js does not
include a meta bug (or any bug) in a traversal result.  Bug 7's summary
carries the meta marker, yet the call getAll(7) on fresh state rejects with a
TypeError before following dependencies or producing a result, and the
variant's isMeta filter would in any case have excluded the record. -/
theorem c9_meta_bug_not_in_single_id_result :
    isMeta (some ⟨some "[meta] tracking"⟩) = true ∧
    getAll1 (dbFetch db9) 7 ⟨[], []⟩ =
      .err "TypeError: bugList.split is not a function" := by
  exact ⟨rfl, rfl⟩

theorem trace_mono (f : FetchFn) : ∀ fuel : Nat,
    (∀ batch st r st', getAllF f fuel batch st = .ok r st' →
      st.trace.length ≤ st'.trace.length) ∧
    (∀ bs st r st', getDepsF f fuel bs st = .ok r st' →
      st.trace.length ≤ st'.trace.length) := by
  intro fuel
  induction fuel with
  | zero =>
    constructor
    · intro batch st r st' h; exact absurd h (by simp [getAllF])
    · intro bs st r st' h; exact absurd h (by simp [getDepsF])
  | succ n ih =>
    constructor
    · intro batch st r st' h
      rw [getAllF] at h
      by_cases hb : batch.isEmpty
      · rw [if_pos hb] at h
        cases h
        exact le_refl _
      · rw [if_neg hb] at h
        cases hgb : getBugF f batch st with
        | error ε => rw [hgb] at h; exact absurd h (by simp)
        | ok p =>
          obtain ⟨info, st2⟩ := p
          rw [hgb] at h
          dsimp only at h
          have hst2 : st2.trace.length = st.trace.length + 1 := by
            rw [getBugF] at hgb
            cases hf : f st.trace.length batch with
            | error ε => rw [hf] at hgb; exact absurd hgb (by simp)
            | ok data =>
              rw [hf] at hgb
              dsimp only at hgb
              cases hgb
              simp
          cases hd : getDepsF f n info st2 with
          | ok deps st3 =>
            rw [hd] at h
            dsimp only at h
            injection h with h1 h2
            have hmono := ih.2 info st2 deps st3 hd
            rw [h2] at hmono
            omega
          | err ε => rw [hd] at h; exact absurd h (by simp)
          | out => rw [hd] at h; exact absurd h (by simp)
    · intro bs st r st' h
      cases bs with
      | nil =>
        rw [getDepsF] at h
        cases h
        exact le_refl _
      | cons c rest =>
        rw [getDepsF] at h
        cases ha : getAllF f n c.depends_on st with
        | ok dl st1 =>
          rw [ha] at h
          dsimp only at h
          cases hd : getDepsF f n rest st1 with
          | ok acc st2 =>
            rw [hd] at h
            dsimp only at h
            injection h with hv hs
            have hm1 := ih.1 c.depends_on st dl st1 ha
            have hm2 := ih.2 rest st1 acc st2 hd
            rw [hs] at hm2
            omega
          | err ε => rw [hd] at h; exact absurd h (by simp)
          | out => rw [hd] at h; exact absurd h (by simp)
        | err ε => rw [ha] at h; exact absurd h (by simp)
        | out => rw [ha] at h; exact absurd h (by simp)

theorem getBugF_failAt_ne (f : FetchFn) (j : Nat) (e : String)
    (batch : List Nat) (st : St) (hne : st.trace.length ≠ j) :
    getBugF (failAt f j e) batch st = getBugF f batch st := by
  simp [getBugF, failAt, hne]

theorem getBugF_failAt_err (f : FetchFn) (j : Nat) (e : String)
    (batch : List Nat) (st : St) (heq : st.trace.length = j) :
    getBugF (failAt f j e) batch st = .error e := by
  simp [getBugF, failAt, heq]

theorem getBugF_ok_len (f : FetchFn) (batch : List Nat) (st : St)
    (info : List Bug) (st2 : St) (h : getBugF f batch st = .ok (info, st2)) :
    st2.trace.length = st.trace.length + 1 := by
  rw [getBugF] at h
  cases hf : f st.trace.length batch with
  | error ε => rw [hf] at h; exact absurd h (by simp)
  | ok data =>
    rw [hf] at h
    dsimp only at h
    injection h with h1
    have h2 := congrArg (fun q => q.2.trace) h1
    dsimp only at h2
    rw [← h2]
    simp

theorem failAt_spec (f : FetchFn) (j : Nat) (e : String) : ∀ fuel : Nat,
    (∀ batch st r st', getAllF f fuel batch st = .ok r st' →
      st.trace.length ≤ j → j < st'.trace.length →
      getAllF (failAt f j e) fuel batch st = .err e) ∧
    (∀ batch st r st', getAllF f fuel batch st = .ok r st' →
      (j < st.trace.length ∨ st'.trace.length ≤ j) →
      getAllF (failAt f j e) fuel batch st = .ok r st') ∧
    (∀ bs st r st', getDepsF f fuel bs st = .ok r st' →
      st.trace.length ≤ j → j < st'.trace.length →
      getDepsF (failAt f j e) fuel bs st = .err e) ∧
    (∀ bs st r st', getDepsF f fuel bs st = .ok r st' →
      (j < st.trace.length ∨ st'.trace.length ≤ j) →
      getDepsF (failAt f j e) fuel bs st = .ok r st') := by
  intro fuel
  induction fuel with
  | zero =>
    refine ⟨?_, ?_, ?_, ?_⟩ <;> intro a b c d h <;> exact absurd h (by simp [getAllF, getDepsF])
  | succ n ih =>
    obtain ⟨ihA, ihB, ihC, ihD⟩ := ih
    refine ⟨?_, ?_, ?_, ?_⟩
    · -- A: a fetch inside the window turns the whole call into .err e
      intro batch st r st' h hlo hhi
      rw [getAllF] at h ⊢
      by_cases hb : batch.isEmpty
      · rw [if_pos hb] at h
        injection h with h1 h2
        rw [← h2] at hhi
        exact absurd hhi (by omega)
      · rw [if_neg hb] at h ⊢
        cases hgb : getBugF f batch st with
        | error ε => rw [hgb] at h; exact absurd h (by simp)
        | ok p =>
          obtain ⟨info, st2⟩ := p
          rw [hgb] at h
          dsimp only at h
          have hst2 := getBugF_ok_len f batch st info st2 hgb
          by_cases hj : st.trace.length = j
          · rw [getBugF_failAt_err f j e batch st hj]
          · rw [getBugF_failAt_ne f j e batch st hj, hgb]
            dsimp only
            cases hd : getDepsF f n info st2 with
            | ok deps st3 =>
              rw [hd] at h
              dsimp only at h
              injection h with h1 h2
              rw [← h2] at hhi
              have hC := ihC info st2 deps st3 hd (by omega) hhi
              rw [hC]
            | err ε => rw [hd] at h; exact absurd h (by simp)
            | out => rw [hd] at h; exact absurd h (by simp)
    · -- B: a fetch outside the window leaves the call unchanged
      intro batch st r st' h hside
      rw [getAllF] at h ⊢
      by_cases hb : batch.isEmpty
      · rw [if_pos hb] at h ⊢; exact h
      · rw [if_neg hb] at h ⊢
        cases hgb : getBugF f batch st with
        | error ε => rw [hgb] at h; exact absurd h (by simp)
        | ok p =>
          obtain ⟨info, st2⟩ := p
          rw [hgb] at h
          dsimp only at h
          have hst2 := getBugF_ok_len f batch st info st2 hgb
          cases hd : getDepsF f n info st2 with
          | ok deps st3 =>
            rw [hd] at h
            dsimp only at h
            injection h with h1 h2
            have hmono := (trace_mono f n).2 info st2 deps st3 hd
            have hne : st.trace.length ≠ j := by
              rcases hside with hlt | hge
              · omega
              · rw [← h2] at hge; omega
            rw [getBugF_failAt_ne f j e batch st hne, hgb]
            dsimp only
            have hD := ihD info st2 deps st3 hd (by
              rcases hside with hlt | hge
              · left; omega
              · right; rw [← h2] at hge; omega)
            rw [hD]
            dsimp only
            rw [h1, h2]
          | err ε => rw [hd] at h; exact absurd h (by simp)
          | out => rw [hd] at h; exact absurd h (by simp)
    · -- C: deps version of A
      intro bs st r st' h hlo hhi
      cases bs with
      | nil =>
        rw [getDepsF] at h
        injection h with h1 h2
        rw [← h2] at hhi
        exact absurd hhi (by omega)
      | cons c rest =>
        rw [getDepsF] at h ⊢
        cases ha : getAllF f n c.depends_on st with
        | ok dl st1 =>
          rw [ha] at h
          dsimp only at h
          cases hd : getDepsF f n rest st1 with
          | ok acc st2 =>
            rw [hd] at h
            dsimp only at h
            injection h with h1 h2
            rw [← h2] at hhi
            have hm1 := (trace_mono f n).1 c.depends_on st dl st1 ha
            by_cases hj1 : j < st1.trace.length
            · have hA := ihA c.depends_on st dl st1 ha hlo hj1
              rw [hA]
            · have hB := ihB c.depends_on st dl st1 ha (Or.inr (by omega))
              rw [hB]
              dsimp only
              have hC := ihC rest st1 acc st2 hd (by omega) hhi
              rw [hC]
          | err ε => rw [hd] at h; exact absurd h (by simp)
          | out => rw [hd] at h; exact absurd h (by simp)
        | err ε => rw [ha] at h; exact absurd h (by simp)
        | out => rw [ha] at h; exact absurd h (by simp)
    · -- D: deps version of B
      intro bs st r st' h hside
      cases bs with
      | nil => rw [getDepsF] at h ⊢; exact h
      | cons c rest =>
        rw [getDepsF] at h ⊢
        cases ha : getAllF f n c.depends_on st with
        | ok dl st1 =>
          rw [ha] at h
          dsimp only at h
          cases hd : getDepsF f n rest st1 with
          | ok acc st2 =>
            rw [hd] at h
            dsimp only at h
            injection h with h1 h2
            have hm1 := (trace_mono f n).1 c.depends_on st dl st1 ha
            have hm2 := (trace_mono f n).2 rest st1 acc st2 hd
            have hB := ihB c.depends_on st dl st1 ha (by
              rcases hside with hlt | hge
              · exact Or.inl hlt
              · right; rw [← h2] at hge; omega)
            rw [hB]
            dsimp only
            have hD := ihD rest st1 acc st2 hd (by
              rcases hside with hlt | hge
              · left; omega
              · right; rw [← h2] at hge; exact hge)
            rw [hD]
            dsimp only
            rw [h1, h2]
          | err ε => rw [hd] at h; exact absurd h (by simp)
          | out => rw [hd] at h; exact absurd h (by simp)
        | err ε => rw [ha] at h; exact absurd h (by simp)
        | out => rw [ha] at h; exact absurd h (by simp)

/-- C7: a fetch failure at any layer aborts the whole traversal with that
same error.  If the traversal over any fetch function succeeds from fresh
state and performs more than j fetches, then the same traversal run against
the fetch function that fails at call j (with arbitrary error e, network or
parse) returns exactly .err e: earlier layers' successes are discarded, no
partial result is produced, and the error is propagated unmodified. -/
theorem c7_fetch_failure_aborts (f : FetchFn) (fuel : Nat) (roots : List Nat)
    (r : List Nat) (st' : St) (j : Nat) (e : String)
    (hok : getAllF f fuel roots ⟨[], []⟩ = .ok r st')
    (hj : j < st'.trace.length) :
    getAllF (failAt f j e) fuel roots ⟨[], []⟩ = .err e :=
  (failAt_spec f j e fuel).1 roots ⟨[], []⟩ r st' hok (Nat.zero_le j) hj

theorem c7_fetch_failure_aborts_witness :
    getAllF (failAt (dbFetch db7) 1 "NetworkError") 10 [1] ⟨[], []⟩ =
      .err "NetworkError" :=
  c7_fetch_failure_aborts (dbFetch db7) 10 [1] [1, 2, 3]
    ⟨[3, 2, 1], [[1], [2], [3]]⟩ 1 "NetworkError" rfl (by decide)

theorem dedupAux_mem : ∀ (l seen : List Nat) (x : Nat),
    x ∈ dedupAux seen l ↔ (x ∈ l ∧ x ∉ seen) := by
  intro l
  induction l with
  | nil => intro seen x; simp [dedupAux]
  | cons a t ih =>
    intro seen x
    rw [dedupAux]
    by_cases ha : a ∈ seen
    · rw [if_pos ha, ih seen x]
      constructor
      · rintro ⟨hxt, hxs⟩; exact ⟨List.mem_cons_of_mem _ hxt, hxs⟩
      · rintro ⟨hx, hxs⟩
        rcases List.mem_cons.1 hx with rfl | hxt
        · exact absurd ha hxs
        · exact ⟨hxt, hxs⟩
    · rw [if_neg ha]
      simp only [List.mem_cons, ih (a :: seen) x]
      constructor
      · rintro (rfl | ⟨hxt, hxs⟩)
        · exact ⟨Or.inl rfl, ha⟩
        · exact ⟨Or.inr hxt, fun hc => hxs (Or.inr hc)⟩
      · rintro ⟨(rfl | hxt), hxs⟩
        · exact Or.inl rfl
        · by_cases hxa : x = a
          · exact Or.inl hxa
          · right
            refine ⟨hxt, ?_⟩
            intro hc
            rcases hc with h1 | h2
            · exact hxa h1
            · exact hxs h2

theorem dedupAux_nodup : ∀ (l seen : List Nat), (dedupAux seen l).Nodup := by
  intro l
  induction l with
  | nil => intro seen; simp [dedupAux]
  | cons a t ih =>
    intro seen
    rw [dedupAux]
    by_cases ha : a ∈ seen
    · rw [if_pos ha]; exact ih seen
    · rw [if_neg ha]
      refine List.nodup_cons.2 ⟨?_, ih (a :: seen)⟩
      intro hmem
      exact ((dedupAux_mem t (a :: seen) a).1 hmem).2 (List.mem_cons_self a seen)

theorem dedupFirst_mem (l : List Nat) (x : Nat) : x ∈ dedupFirst l ↔ x ∈ l := by
  rw [dedupFirst, dedupAux_mem]
  simp

theorem dedupFirst_nodup (l : List Nat) : (dedupFirst l).Nodup :=
  dedupAux_nodup l []

theorem get_mem_take : ∀ (l : List Bug) (k : Nat) (h : k < l.length),
    l.get ⟨k, h⟩ ∈ l.take (k + 1) := by
  intro l
  induction l with
  | nil => intro k h; exact absurd h (by simp)
  | cons a t ih =>
    intro k h
    cases k with
    | zero => simp
    | succ m =>
      rw [List.take_succ_cons]
      exact List.mem_cons_of_mem _ (ih m (by simpa using h))

theorem mem_eraseIdx_of_ne : ∀ (l : List Bug) (k : Nat) (h : k < l.length) (b : Bug),
    b ∈ l → b ≠ l.get ⟨k, h⟩ → b ∈ l.eraseIdx k := by
  intro l
  induction l with
  | nil => intro k h; exact absurd h (by simp)
  | cons a t ih =>
    intro k h b hb hne
    cases k with
    | zero =>
      rcases List.mem_cons.1 hb with rfl | hbt
      · exact absurd rfl hne
      · simpa using hbt
    | succ m =>
      rcases List.mem_cons.1 hb with rfl | hbt
      · exact List.mem_cons_self _ _
      · exact List.mem_cons_of_mem _ (ih m (by simpa using h) b hbt (by simpa using hne))

theorem take_eraseIdx_self : ∀ (l : List Bug) (k : Nat),
    (l.eraseIdx k).take k = l.take k := by
  intro l
  induction l with
  | nil => intro k; simp [List.eraseIdx]
  | cons a t ih =>
    intro k
    cases k with
    | zero => rfl
    | succ m => simp [List.eraseIdx, List.take_succ_cons, ih m]

theorem purgeGo_sublist : ∀ (n k : Nat) (arr : List Bug) (vis : List Nat),
    (purgeGo n k arr vis).1.Sublist arr := by
  intro n
  induction n with
  | zero => intro k arr vis; exact List.Sublist.refl _
  | succ m ih =>
    intro k arr vis
    rw [purgeGo]
    by_cases hk : k < arr.length
    · rw [dif_pos hk]
      by_cases hv : (arr.get ⟨k, hk⟩).id ∈ vis
      · rw [if_pos hv]
        exact (ih (k+1) (arr.eraseIdx k) vis).trans (List.eraseIdx_sublist arr k)
      · rw [if_neg hv]; exact ih (k+1) arr _
    · rw [dif_neg hk]; exact ih (k+1) arr vis

theorem purgeGo_vis_mono : ∀ (n k : Nat) (arr : List Bug) (vis : List Nat) (i : Nat),
    i ∈ vis → i ∈ (purgeGo n k arr vis).2 := by
  intro n
  induction n with
  | zero => intro k arr vis i hi; exact hi
  | succ m ih =>
    intro k arr vis i hi
    rw [purgeGo]
    by_cases hk : k < arr.length
    · rw [dif_pos hk]
      by_cases hv : (arr.get ⟨k, hk⟩).id ∈ vis
      · rw [if_pos hv]; exact ih (k+1) _ vis i hi
      · rw [if_neg hv]; exact ih (k+1) arr _ i (List.mem_cons_of_mem _ hi)
    · rw [dif_neg hk]; exact ih (k+1) arr vis i hi

theorem purgeGo_take : ∀ (n k : Nat) (arr : List Bug) (vis : List Nat),
    (purgeGo n k arr vis).1.take k = arr.take k := by
  intro n
  induction n with
  | zero => intro k arr vis; rfl
  | succ m ih =>
    intro k arr vis
    rw [purgeGo]
    by_cases hk : k < arr.length
    · rw [dif_pos hk]
      have hmin : k ⊓ (k + 1) = k := inf_eq_left.2 (by omega)
      by_cases hv : (arr.get ⟨k, hk⟩).id ∈ vis
      · rw [if_pos hv]
        have h2 : (purgeGo m (k+1) (arr.eraseIdx k) vis).1.take k =
            ((purgeGo m (k+1) (arr.eraseIdx k) vis).1.take (k+1)).take k := by
          rw [List.take_take, hmin]
        rw [h2, ih (k+1) (arr.eraseIdx k) vis, List.take_take, hmin,
          take_eraseIdx_self]
      · rw [if_neg hv]
        have h2 : (purgeGo m (k+1) arr ((arr.get ⟨k, hk⟩).id :: vis)).1.take k =
            ((purgeGo m (k+1) arr ((arr.get ⟨k, hk⟩).id :: vis)).1.take (k+1)).take k := by
          rw [List.take_take, hmin]
        rw [h2, ih (k+1) arr ((arr.get ⟨k, hk⟩).id :: vis), List.take_take, hmin]
    · rw [dif_neg hk]
      have hmin : k ⊓ (k + 1) = k := inf_eq_left.2 (by omega)
      have h2 : (purgeGo m (k+1) arr vis).1.take k =
          ((purgeGo m (k+1) arr vis).1.take (k+1)).take k := by
        rw [List.take_take, hmin]
      rw [h2, ih (k+1) arr vis, List.take_take, hmin]

theorem purgeGo_vis_new : ∀ (n k : Nat) (arr : List Bug) (vis : List Nat) (i : Nat),
    i ∈ (purgeGo n k arr vis).2 →
      i ∈ vis ∨ i ∈ (purgeGo n k arr vis).1.map Bug.id := by
  intro n
  induction n with
  | zero => intro k arr vis i hi; exact Or.inl hi
  | succ m ih =>
    intro k arr vis i hi
    rw [purgeGo] at hi ⊢
    by_cases hk : k < arr.length
    · rw [dif_pos hk] at hi ⊢
      by_cases hv : (arr.get ⟨k, hk⟩).id ∈ vis
      · rw [if_pos hv] at hi ⊢
        exact ih (k+1) _ vis i hi
      · rw [if_neg hv] at hi ⊢
        rcases ih (k+1) arr _ i hi with hcons | hres
        · rcases List.mem_cons.1 hcons with rfl | hvis
          · right
            have hmem : arr.get ⟨k, hk⟩ ∈ arr.take (k+1) := get_mem_take arr k hk
            rw [← purgeGo_take m (k+1) arr ((arr.get ⟨k, hk⟩).id :: vis)] at hmem
            exact List.mem_map_of_mem Bug.id (List.mem_of_mem_take hmem)
          · exact Or.inl hvis
        · exact Or.inr hres
    · rw [dif_neg hk] at hi ⊢
      exact ih (k+1) arr vis i hi

theorem purgeGo_keep : ∀ (n k : Nat) (arr : List Bug) (vis : List Nat) (b : Bug),
    (arr.map Bug.id).Nodup → b ∈ arr → b.id ∉ vis → b ∈ (purgeGo n k arr vis).1 := by
  intro n
  induction n with
  | zero => intro k arr vis b _ hb _; exact hb
  | succ m ih =>
    intro k arr vis b hnd hb hv
    rw [purgeGo]
    by_cases hk : k < arr.length
    · rw [dif_pos hk]
      by_cases hvis : (arr.get ⟨k, hk⟩).id ∈ vis
      · rw [if_pos hvis]
        have hne : b ≠ arr.get ⟨k, hk⟩ := by
          intro hEq
          rw [hEq] at hv
          exact hv hvis
        have hb' : b ∈ arr.eraseIdx k := mem_eraseIdx_of_ne arr k hk b hb hne
        have hnd' : ((arr.eraseIdx k).map Bug.id).Nodup :=
          List.Nodup.sublist (List.Sublist.map Bug.id (List.eraseIdx_sublist arr k)) hnd
        exact ih (k+1) (arr.eraseIdx k) vis b hnd' hb' hv
      · rw [if_neg hvis]
        by_cases hEq : b = arr.get ⟨k, hk⟩
        · have hmem : b ∈ arr.take (k+1) := by
            rw [hEq]; exact get_mem_take arr k hk
          rw [← purgeGo_take m (k+1) arr ((arr.get ⟨k, hk⟩).id :: vis)] at hmem
          exact List.mem_of_mem_take hmem
        · have hvne : b.id ∉ (arr.get ⟨k, hk⟩).id :: vis := by
            intro hc
            rcases List.mem_cons.1 hc with hidEq | hcv
            · exact hEq (List.inj_on_of_nodup_map hnd hb (List.get_mem arr k hk) hidEq)
            · exact hv hcv
          exact ih (k+1) arr _ b hnd hb hvne
    · rw [dif_neg hk]
      exact ih (k+1) arr vis b hnd hb hv

theorem resp_ids (db : Nat → Option Bug) (hwf : wellFormed db) :
    ∀ l : List Nat,
      (l.filterMap db).map Bug.id = l.filter (fun x => (db x).isSome) := by
  intro l
  induction l with
  | nil => rfl
  | cons x t ih =>
    rw [List.filterMap_cons, List.filter_cons]
    cases hdb : db x with
    | none => simp [hdb, ih]
    | some b =>
      have hid : b.id = x := hwf x b hdb
      simp [hdb, ih, hid]

theorem resp_genuine (db : Nat → Option Bug) (hwf : wellFormed db)
    (l : List Nat) : ∀ b ∈ l.filterMap db, db b.id = some b := by
  intro b hb
  obtain ⟨x, hx, hdb⟩ := List.mem_filterMap.1 hb
  have hid := hwf x b hdb
  rw [hid]
  exact hdb

theorem resp_nodup (db : Nat → Option Bug) (hwf : wellFormed db)
    (batch : List Nat) :
    (((dedupFirst batch).filterMap db).map Bug.id).Nodup := by
  rw [resp_ids db hwf]
  exact (dedupFirst_nodup batch).filter _

theorem purgeVisited_spec (arr : List Bug) (vis : List Nat) (res : List Bug)
    (vis2 : List Nat) (hpv : purgeVisited arr vis = (res, vis2)) :
    res.Sublist arr ∧
    (∀ i, i ∈ vis → i ∈ vis2) ∧
    (∀ i, i ∈ vis2 → i ∈ vis ∨ i ∈ res.map Bug.id) ∧
    ((arr.map Bug.id).Nodup → ∀ b, b ∈ arr → b.id ∉ vis → b ∈ res) := by
  unfold purgeVisited at hpv
  refine ⟨?_, ?_, ?_, ?_⟩
  · have h := purgeGo_sublist arr.length 0 arr vis
    rw [hpv] at h
    exact h
  · intro i hi
    have h := purgeGo_vis_mono arr.length 0 arr vis i hi
    rw [hpv] at h
    exact h
  · intro i hi
    have h := purgeGo_vis_new arr.length 0 arr vis i
    rw [hpv] at h
    exact h hi
  · intro hnd b hb hv
    have h := purgeGo_keep arr.length 0 arr vis b hnd hb hv
    rw [hpv] at h
    exact h

theorem getAllF_db_succ (db : Nat → Option Bug) (n : Nat) (batch : List Nat)
    (st : St) (hne : ¬ batch.isEmpty = true) :
    getAllF (dbFetch db) (n+1) batch st =
      match getDepsF (dbFetch db) n
          (purgeVisited ((dedupFirst batch).filterMap db) st.visited).1
          ⟨(purgeVisited ((dedupFirst batch).filterMap db) st.visited).2,
            st.trace ++ [batch]⟩ with
      | .ok deps st3 =>
        .ok ((purgeVisited ((dedupFirst batch).filterMap db) st.visited).1.map
          Bug.id ++ deps) st3
      | .err e => .err e
      | .out => .out := by
  rw [getAllF, if_neg hne]
  rfl

theorem trav_inv (db : Nat → Option Bug) (hwf : wellFormed db)
    (roots : List Nat) : ∀ fuel : Nat,
    (∀ batch st r st', getAllF (dbFetch db) fuel batch st = .ok r st' →
      (∀ i, i ∈ st'.visited → i ∈ st.visited ∨ i ∈ r) ∧
      (∀ x, x ∈ batch → (db x).isSome → x ∈ st.visited ∨ x ∈ r) ∧
      (∀ y, y ∈ r → ∀ d b, db y = some b → d ∈ b.depends_on → (db d).isSome →
        d ∈ st.visited ∨ d ∈ r) ∧
      ((∀ x, x ∈ batch → (db x).isSome → Reach db roots x) →
        ∀ y, y ∈ r → Reach db roots y)) ∧
    (∀ bs st r st', getDepsF (dbFetch db) fuel bs st = .ok r st' →
      (∀ b, b ∈ bs → db b.id = some b) →
      (∀ i, i ∈ st'.visited → i ∈ st.visited ∨ i ∈ r) ∧
      (∀ b, b ∈ bs → ∀ d, d ∈ b.depends_on → (db d).isSome →
        d ∈ st.visited ∨ d ∈ r) ∧
      (∀ y, y ∈ r → ∀ d b, db y = some b → d ∈ b.depends_on → (db d).isSome →
        d ∈ st.visited ∨ d ∈ r) ∧
      ((∀ b, b ∈ bs → Reach db roots b.id) → ∀ y, y ∈ r → Reach db roots y)) := by
  intro fuel
  induction fuel with
  | zero =>
    constructor
    · intro batch st r st' h
      exact absurd h (by simp [getAllF])
    · intro bs st r st' h _
      exact absurd h (by simp [getDepsF])
  | succ n ih =>
    obtain ⟨ihA, ihD⟩ := ih
    constructor
    · intro batch st r st' h
      by_cases hb : batch.isEmpty
      · rw [getAllF, if_pos hb] at h
        injection h with h1 h2
        refine ⟨?_, ?_, ?_, ?_⟩
        · intro i hi
          rw [← h2] at hi
          exact Or.inl hi
        · intro x hx _
          rw [List.isEmpty_iff.1 hb] at hx
          exact absurd hx (List.not_mem_nil x)
        · intro y hy
          rw [← h1] at hy
          exact absurd hy (List.not_mem_nil y)
        · intro _ y hy
          rw [← h1] at hy
          exact absurd hy (List.not_mem_nil y)
      · rw [getAllF_db_succ db n batch st hb] at h
        cases hpv : purgeVisited ((dedupFirst batch).filterMap db) st.visited with
        | mk res vis2 =>
          rw [hpv] at h
          dsimp only at h
          obtain ⟨hsub, hvmono, hvnew, hkeep⟩ :=
            purgeVisited_spec _ st.visited res vis2 hpv
          have hgen : ∀ b ∈ (dedupFirst batch).filterMap db, db b.id = some b :=
            resp_genuine db hwf _
          have hnd : (((dedupFirst batch).filterMap db).map Bug.id).Nodup :=
            resp_nodup db hwf batch
          cases hd : getDepsF (dbFetch db) n res ⟨vis2, st.trace ++ [batch]⟩ with
          | ok deps st3 =>
            rw [hd] at h
            dsimp only at h
            injection h with h1 h2
            obtain ⟨d1, d2, d3, d4⟩ :=
              ihD res ⟨vis2, st.trace ++ [batch]⟩ deps st3 hd
                (fun b hb' => hgen b (hsub.subset hb'))
            refine ⟨?_, ?_, ?_, ?_⟩
            · intro i hi
              rw [← h2] at hi
              rcases d1 i hi with hv2 | hdeps
              · rcases hvnew i hv2 with hstv | hres
                · exact Or.inl hstv
                · right
                  rw [← h1]
                  exact List.mem_append.2 (Or.inl hres)
              · right
                rw [← h1]
                exact List.mem_append.2 (Or.inr hdeps)
            · intro x hx hrec
              by_cases hxv : x ∈ st.visited
              · exact Or.inl hxv
              · right
                obtain ⟨b, hdb⟩ := Option.isSome_iff_exists.1 hrec
                have hbmem : b ∈ (dedupFirst batch).filterMap db :=
                  List.mem_filterMap.2 ⟨x, (dedupFirst_mem batch x).2 hx, hdb⟩
                have hid : b.id = x := hwf x b hdb
                have hbres : b ∈ res := hkeep hnd b hbmem (by rw [hid]; exact hxv)
                rw [← h1]
                refine List.mem_append.2 (Or.inl ?_)
                rw [← hid]
                exact List.mem_map_of_mem Bug.id hbres
            · intro y hy d b hdb hdd hrec
              rw [← h1] at hy
              rcases List.mem_append.1 hy with hyids | hydeps
              · obtain ⟨by2, hbyres, hbyid⟩ := List.mem_map.1 hyids
                have hbygen : db by2.id = some by2 := hgen by2 (hsub.subset hbyres)
                have hsame : db y = some by2 := by
                  rw [← hbyid]
                  exact hbygen
                rw [hdb] at hsame
                injection hsame with hbeq
                have hdd2 : d ∈ by2.depends_on := by
                  rw [← hbeq]
                  exact hdd
                rcases d2 by2 hbyres d hdd2 hrec with hv2 | hdeps
                · rcases hvnew d hv2 with hstv | hres
                  · exact Or.inl hstv
                  · right
                    rw [← h1]
                    exact List.mem_append.2 (Or.inl hres)
                · right
                  rw [← h1]
                  exact List.mem_append.2 (Or.inr hdeps)
              · rcases d3 y hydeps d b hdb hdd hrec with hv2 | hdeps
                · rcases hvnew d hv2 with hstv | hres
                  · exact Or.inl hstv
                  · right
                    rw [← h1]
                    exact List.mem_append.2 (Or.inl hres)
                · right
                  rw [← h1]
                  exact List.mem_append.2 (Or.inr hdeps)
            · intro hpre y hy
              rw [← h1] at hy
              rcases List.mem_append.1 hy with hyids | hydeps
              · obtain ⟨by2, hbyres, hbyid⟩ := List.mem_map.1 hyids
                obtain ⟨x, hxded, hdbx⟩ := List.mem_filterMap.1 (hsub.subset hbyres)
                have hid : by2.id = x := hwf x by2 hdbx
                have hxbatch : x ∈ batch := (dedupFirst_mem batch x).1 hxded
                have hxreach := hpre x hxbatch (by rw [hdbx]; rfl)
                rw [← hbyid, hid]
                exact hxreach
              · refine d4 ?_ y hydeps
                intro b hbres
                obtain ⟨x, hxded, hdbx⟩ := List.mem_filterMap.1 (hsub.subset hbres)
                have hid : b.id = x := hwf x b hdbx
                have hxbatch : x ∈ batch := (dedupFirst_mem batch x).1 hxded
                rw [hid]
                exact hpre x hxbatch (by rw [hdbx]; rfl)
          | err e =>
            rw [hd] at h
            exact absurd h (by simp)
          | out =>
            rw [hd] at h
            exact absurd h (by simp)
    · intro bs st r st' h hrecs
      cases bs with
      | nil =>
        rw [getDepsF] at h
        injection h with h1 h2
        refine ⟨?_, ?_, ?_, ?_⟩
        · intro i hi
          rw [← h2] at hi
          exact Or.inl hi
        · intro b hb
          exact absurd hb (List.not_mem_nil b)
        · intro y hy
          rw [← h1] at hy
          exact absurd hy (List.not_mem_nil y)
        · intro _ y hy
          rw [← h1] at hy
          exact absurd hy (List.not_mem_nil y)
      | cons c rest =>
        rw [getDepsF] at h
        cases ha : getAllF (dbFetch db) n c.depends_on st with
        | ok r1 st1 =>
          rw [ha] at h
          dsimp only at h
          cases hd : getDepsF (dbFetch db) n rest st1 with
          | ok r2 st2 =>
            rw [hd] at h
            dsimp only at h
            injection h with h1 h2
            obtain ⟨a1, a2, a3, a4⟩ := ihA c.depends_on st r1 st1 ha
            obtain ⟨e1, e2, e3, e4⟩ :=
              ihD rest st1 r2 st2 hd (fun b hb => hrecs b (List.mem_cons_of_mem _ hb))
            have hlift1 : ∀ i, i ∈ r1 → i ∈ r := by
              intro i hi
              rw [← h1]
              exact List.mem_append.2 (Or.inl hi)
            have hlift2 : ∀ i, i ∈ r2 → i ∈ r := by
              intro i hi
              rw [← h1]
              exact List.mem_append.2 (Or.inr hi)
            have hvis1 : ∀ i, i ∈ st1.visited → i ∈ st.visited ∨ i ∈ r := by
              intro i hi
              rcases a1 i hi with h' | h'
              · exact Or.inl h'
              · exact Or.inr (hlift1 i h')
            refine ⟨?_, ?_, ?_, ?_⟩
            · intro i hi
              rw [← h2] at hi
              rcases e1 i hi with h' | h'
              · exact hvis1 i h'
              · exact Or.inr (hlift2 i h')
            · intro b hb d hdd hrec
              rcases List.mem_cons.1 hb with rfl | hbrest
              · rcases a2 d hdd hrec with h' | h'
                · exact Or.inl h'
                · exact Or.inr (hlift1 d h')
              · rcases e2 b hbrest d hdd hrec with h' | h'
                · exact hvis1 d h'
                · exact Or.inr (hlift2 d h')
            · intro y hy d b hdb hdd hrec
              rw [← h1] at hy
              rcases List.mem_append.1 hy with hy1 | hy2
              · rcases a3 y hy1 d b hdb hdd hrec with h' | h'
                · exact Or.inl h'
                · exact Or.inr (hlift1 d h')
              · rcases e3 y hy2 d b hdb hdd hrec with h' | h'
                · exact hvis1 d h'
                · exact Or.inr (hlift2 d h')
            · intro hpre y hy
              rw [← h1] at hy
              rcases List.mem_append.1 hy with hy1 | hy2
              · refine a4 ?_ y hy1
                intro x hx hrec
                exact Reach.step c.id c x (hpre c (List.mem_cons_self c rest))
                  (hrecs c (List.mem_cons_self c rest)) hx hrec
              · exact e4 (fun b hb => hpre b (List.mem_cons_of_mem _ hb)) y hy2
          | err e =>
            rw [hd] at h
            exact absurd h (by simp)
          | out =>
            rw [hd] at h
            exact absurd h (by simp)
        | err e =>
          rw [ha] at h
          exact absurd h (by simp)
        | out =>
          rw [ha] at h
          exact absurd h (by simp)

theorem db5k_wf : wellFormed db5k := by
  intro x b h
  unfold db5k at h
  split at h
  · injection h with h2
    rw [← h2]
  · injection h with h2
    rw [← h2]
  · exact absurd h (by simp)

/-- C5: whenever a top-level getAll call on fresh visited-state over a
well-formed database terminates successfully, its result contains exactly the
identifiers reachable from the roots through the depends-on relation: every
reachable identifier is present and no unreachable identifier is present.
(Duplicate entries can occur, but the set of entries is exactly the
reachable set; on graphs where the call never terminates there is no result
— that defect is the subject of C4.) -/
theorem c5_result_exactly_reachable (db : Nat → Option Bug) (hwf : wellFormed db)
    (roots : List Nat) (fuel : Nat) (r : List Nat) (st' : St)
    (h : getAllF (dbFetch db) fuel roots ⟨[], []⟩ = .ok r st') :
    ∀ x, x ∈ r ↔ Reach db roots x := by
  obtain ⟨i1, i2, i3, i4⟩ := (trav_inv db hwf roots fuel).1 roots ⟨[], []⟩ r st' h
  intro x
  constructor
  · intro hx
    refine i4 ?_ x hx
    intro z hz hrec
    obtain ⟨b, hdb⟩ := Option.isSome_iff_exists.1 hrec
    exact Reach.root z b hz hdb
  · intro hreach
    induction hreach with
    | root z b hz hdb =>
      rcases i2 z hz (by rw [hdb]; rfl) with h' | h'
      · exact absurd h' (List.not_mem_nil z)
      · exact h'
    | step z b y hz hdb hy hrec ihz =>
      rcases i3 z ihz y b hdb hy hrec with h' | h'
      · exact absurd h' (List.not_mem_nil y)
      · exact h'

theorem c5_result_exactly_reachable_witness :
    5001 ∈ ([5000, 5001] : List Nat) ↔ Reach db5k [5000] 5001 :=
  c5_result_exactly_reachable db5k db5k_wf [5000] 10 [5000, 5001]
    ⟨[5001, 5000], [[5000], [5001]]⟩ rfl 5001
